import Mathlib

/-!
# Verification of the uro-go URL deduplicator

A shallow embedding of the core of the `uro-go` repository (package `uro`,
file `uro.go`, together with `internal/processor`, `internal/filter`,
`internal/config` and `pkg/urlutil`), with theorems settling the spec claims.

Modelling conventions:
* Go `map[string]T` values are modelled as association lists (`List (String × T)`)
  with first-match lookup (`alookup`) and replace-or-append update (`aupdate`);
  Go map iteration order is unspecified, the model fixes insertion order.
* Go `map[string]struct{}` sets are modelled as `List String` with membership
  via `List.contains`.
* Strings are Lean `String`s; Go indexes bytes, the model indexes characters,
  which coincides for the ASCII data the program manipulates.  The raw-byte
  sanitisation step (`strings.ToValidUTF8`) is modelled separately on byte
  lists (`goToValidUTF8`).
* The two regular expressions of the source, `/\d+([?/]|$)` (reInt) and
  `(post|blog)s?|docs|support/|/(\d{4}|pages?)/\d+/` (reContent), are modelled
  by hand-rolled scanners implementing leftmost-first (RE2 `FindStringIndex`)
  semantics for exactly these patterns.
-/

namespace Uro

/-! ## Association lists (model of Go maps) -/

/-- First-match lookup in an association list (Go `m[k]`). -/
def alookup (k : String) : List (String × α) → Option α
  | [] => none
  | (k', v) :: rest => if k = k' then some v else alookup k rest

/-- Replace-or-append update of an association list (Go `m[k] = v`). -/
def aupdate (k : String) (v : α) : List (String × α) → List (String × α)
  | [] => [(k, v)]
  | (k', v') :: rest => if k = k' then (k, v) :: rest else (k', v') :: aupdate k v rest

theorem alookup_aupdate_self (k : String) (v : α) :
    ∀ m : List (String × α), alookup k (aupdate k v m) = some v := by
  intro m
  induction m with
  | nil => simp [alookup, aupdate]
  | cons hd tl ih =>
    obtain ⟨k', v'⟩ := hd
    by_cases h : k = k' <;> simp [alookup, aupdate, h, ih]

theorem alookup_aupdate_other (k k' : String) (v : α) (hne : k' ≠ k) :
    ∀ m : List (String × α), alookup k' (aupdate k v m) = alookup k' m := by
  intro m
  induction m with
  | nil => simp [alookup, aupdate, hne]
  | cons hd tl ih =>
    obtain ⟨k0, v0⟩ := hd
    by_cases h : k = k0
    · subst h
      simp [alookup, aupdate, hne]
    · by_cases h' : k' = k0 <;> simp [alookup, aupdate, h, h', ih]

/-- Append a string to a list if it is not already present (model of adding to
a Go string set while keeping insertion order). -/
def addIfAbsent (l : List String) (x : String) : List String :=
  if l.contains x then l else l ++ [x]

theorem mem_addIfAbsent (l : List String) (x y : String) :
    y ∈ addIfAbsent l x ↔ y ∈ l ∨ y = x := by
  unfold addIfAbsent
  by_cases h : l.contains x
  · rw [if_pos h]
    constructor
    · exact fun hy => Or.inl hy
    · rintro (hy | rfl)
      · exact hy
      · exact List.elem_iff.mp h
  · rw [if_neg h]
    simp

/-! ## Character and string helpers -/

/-- The whitespace characters trimmed by Go `strings.TrimSpace` (ASCII part;
the inputs in question contain no exotic Unicode spaces). -/
def goIsSpace (c : Char) : Bool :=
  c = ' ' || c = '\t' || c = '\n' || c = '\x0b' || c = '\x0c' || c = '\r'

/-- Model of Go `strings.TrimSpace`. -/
def trimSpace (s : String) : String :=
  String.mk (((s.toList.dropWhile goIsSpace).reverse.dropWhile goIsSpace).reverse)

/-- Model of Go `strings.TrimSuffix(s, "/")`: remove one trailing slash. -/
def trimSuffixSlash (s : String) : String :=
  if s.toList.getLast? = some '/' then String.mk s.toList.dropLast else s

/-- Split a character list on a single separator character
(model of Go `strings.Split` with a one-character separator). -/
def splitOnCh (c : Char) : List Char → List (List Char)
  | [] => [[]]
  | x :: rest =>
    match splitOnCh c rest with
    | [] => [[x]]
    | g :: gs => if x = c then [] :: g :: gs else (x :: g) :: gs

/-- `strings.Split` on Lean strings (single-character separator). -/
def splitOnStr (c : Char) (s : String) : List String :=
  (splitOnCh c s.toList).map String.mk

/-- The characters after the last occurrence of `c` (the whole list when `c`
does not occur). -/
def afterLast (c : Char) (l : List Char) : List Char :=
  (l.reverse.takeWhile (fun x => x ≠ c)).reverse

/-- First `n` characters of a string (Go `s[:n]` on ASCII data). -/
def takeChars (n : Nat) (s : String) : String :=
  String.mk (s.toList.take n)

/-- Model of Go `strings.HasPrefix s pre`. -/
def hasPrefixStr (s pre : String) : Bool :=
  pre.toList.isPrefixOf s.toList

/-- Model of Go `strings.ToLower` (ASCII adequate for the data in play). -/
def toLowerStr (s : String) : String :=
  String.mk (s.toList.map Char.toLower)

/-- Go `isDigit`: the string is non-empty and consists of `'0'`–`'9'` only
(`uro.go` lines 538–548). -/
def isDigitStr (s : String) : Bool :=
  !s.toList.isEmpty && s.toList.all (fun c => decide ('0' ≤ c) && decide (c ≤ '9'))

theorem take_isPrefixOf : ∀ (m : Nat) (l : List Char), (l.take m).isPrefixOf l = true := by
  intro m
  induction m with
  | zero => intro l; simp [List.isPrefixOf]
  | succ n ih =>
    intro l
    cases l with
    | nil => simp [List.isPrefixOf]
    | cons x xs => simp [List.isPrefixOf, ih]

/-! ## Query decoding (`paramsToMap`, `uro.go` lines 446–460 and
`pkg/urlutil.ParamsToMap`) -/

/-- A decoded parameter set: parameter name to decoded value, unique keys. -/
abbrev Params := List (String × String)

/-- Model of Go `strings.SplitN(pair, "=", 2)`: split on the first `=` only. -/
def splitN2Eq (s : String) : List String :=
  match splitOnStr '=' s with
  | [] => [s]
  | [x] => [x]
  | x :: rest => [x, String.intercalate "=" rest]

/-- One iteration of the `paramsToMap` loop body. -/
def addSeg (m : Params) (pair : String) : Params :=
  match splitN2Eq pair with
  | [a, b] => if a = "" then m else aupdate a b m
  | [a] => if a = "" then m else aupdate a "" m
  | _ => m

/-- The `paramsToMap` loop over all `&`-separated segments. -/
def addSegs (m : Params) : List String → Params
  | [] => m
  | pair :: rest => addSegs (addSeg m pair) rest

/-- `paramsToMap` (`uro.go` lines 446–460): split the raw query on `&`, each
segment on the first `=`; a valued segment maps name to value, a bare name maps
to `""`, empty names are discarded; duplicate names overwrite (Go map
assignment). -/
def paramsToMap (query : String) : Params :=
  if query = "" then [] else addSegs [] (splitOnStr '&' query)

/-- `mapToQuery` (`uro.go` lines 462–471). -/
def mapToQuery (params : Params) : String :=
  if params.isEmpty then ""
  else "?" ++ String.intercalate "&" (params.map (fun kv => kv.1 ++ "=" ++ kv.2))

/-- The union of keys over a list of stored parameter sets (the `seen` set
built by `compareParams`, `uro.go` lines 473–479). -/
def unionKeys (existing : List Params) : List String :=
  existing.foldl (fun acc ps => ps.foldl (fun a kv => addIfAbsent a kv.1) acc) []

/-- `compareParams` (`uro.go` lines 473–486): `true` iff the new parameter set
has a key that no stored parameter set of this path has. -/
def compareParams (existing : List Params) (nw : Params) : Bool :=
  nw.any (fun kv => !(unionKeys existing).contains kv.1)

/-- The parameter names of the current URL not yet in the globally seen set
(`uro.go` lines 280–286). -/
def newParamsOf (seen : List String) : Params → List String
  | [] => []
  | kv :: rest =>
    if seen.contains kv.1 then newParamsOf seen rest
    else kv.1 :: newParamsOf seen rest

/-! ## Extension helpers (`uro.go` lines 516–536) -/

/-- `hasExtension`: the final path segment contains a `.`. -/
def hasExtension (path : String) : Bool :=
  (afterLast '/' path.toList).contains '.'

/-- `getExtension`: lower-cased text after the last `.` of the final path
segment, `""` when there is no dot. -/
def getExtension (path : String) : String :=
  let lastPart := afterLast '/' path.toList
  if lastPart.contains '.' then String.mk ((afterLast '.' lastPart).map Char.toLower)
  else ""

/-! ## The `reInt` regex `/\d+([?/]|$)` (`uro.go` line 98), as a scanner -/

def isDigitChar (c : Char) : Bool := decide ('0' ≤ c) && decide (c ≤ '9')

/-- Consume a maximal run of digits, returning its length and the rest. -/
def digitRun : List Char → Nat × List Char
  | [] => (0, [])
  | c :: rest =>
    if isDigitChar c then
      let r := digitRun rest
      (r.1 + 1, r.2)
    else (0, c :: rest)

/-- Scanner for `/\d+([?/]|$)`: a `/` followed by one or more digits followed
by `/`, `?` or the end of the string occurs somewhere. -/
def reIntAux : List Char → Bool
  | [] => false
  | c :: rest =>
    if c = '/' then
      let r := digitRun rest
      if r.1 > 0 && (r.2.isEmpty || r.2.head? = some '/' || r.2.head? = some '?') then true
      else reIntAux rest
    else reIntAux rest

/-- `p.reInt.MatchString path`. -/
def reIntMatch (path : String) : Bool := reIntAux path.toList

/-! ## `createPattern` (`uro.go` lines 427–442) -/

/-- The metacharacters escaped by Go `regexp.QuoteMeta`. -/
def goSpecialChars : List Char :=
  ['\\', '.', '+', '*', '?', '(', ')', '|', '[', ']', '\x7b', '\x7d', '^', '$']

/-- Model of Go `regexp.QuoteMeta`. -/
def quoteMeta (s : String) : String :=
  String.mk (s.toList.foldr
    (fun c acc => if goSpecialChars.contains c then '\\' :: c :: acc else c :: acc) [])

/-- `createPattern`: split on `/`, replace all-digit segments by `\d+`, quote
the rest, and keep only the segments up to the last all-digit one. -/
def createPattern (path : String) : String :=
  let parts := splitOnStr '/' path
  let newParts := parts.map (fun part => if isDigitStr part then "\\d+" else quoteMeta part)
  let lastIndex := parts.enum.foldl (fun acc ip => if isDigitStr ip.2 then ip.1 else acc) 0
  String.intercalate "/" (newParts.take (lastIndex + 1))

/-! ## The `reContent` regex `(post|blog)s?|docs|support/|/(\d{4}|pages?)/\d+/`
(`uro.go` line 99), as a leftmost-first scanner returning the end index of the
leftmost match, i.e. `FindStringIndex(path)[1]`. -/

/-- After the group of the fourth alternative: require `/`, one or more
digits, `/`; returns the number of characters consumed. -/
def contTail : List Char → Option Nat
  | '/' :: r2 =>
    let d := digitRun r2
    if d.1 > 0 && d.2.head? = some '/' then some (1 + d.1 + 1) else none
  | _ => none

/-- Exactly four digits at the front; returns the rest. -/
def fourDigits : List Char → Option (List Char)
  | a :: b :: c :: d :: rest =>
    if isDigitChar a && isDigitChar b && isDigitChar c && isDigitChar d then some rest
    else none
  | _ => none

/-- `page` followed by an optional greedy `s`; returns consumed count and rest. -/
def pageWord : List Char → Option (Nat × List Char)
  | 'p' :: 'a' :: 'g' :: 'e' :: 's' :: rest => some (5, rest)
  | 'p' :: 'a' :: 'g' :: 'e' :: rest => some (4, rest)
  | _ => none

/-- Try to match the `reContent` alternation at the current position; returns
the length of the match.  Alternatives in source order; `s?` is greedy. -/
def tryContentAt (s : List Char) : Option Nat :=
  if ("post".toList.isPrefixOf s) || ("blog".toList.isPrefixOf s) then
    some (if (s.drop 4).head? = some 's' then 5 else 4)
  else if "docs".toList.isPrefixOf s then some 4
  else if "support/".toList.isPrefixOf s then some 8
  else
    match s with
    | '/' :: rest =>
      (match fourDigits rest with
       | some rest2 => (contTail rest2).map (fun n => 1 + 4 + n)
       | none =>
         match pageWord rest with
         | some kr => (contTail kr.2).map (fun n => 1 + kr.1 + n)
         | none => none)
    | _ => none

/-- Scan left to right; at the first position where the alternation matches,
return the end index of that match. -/
def reContentAux : List Char → Nat → Option Nat
  | s, i =>
    match tryContentAt s with
    | some len => some (i + len)
    | none =>
      match s with
      | [] => none
      | _ :: rest => reContentAux rest (i + 1)

/-- `p.reContent.FindStringIndex path` end position (`match[1]`), `none` when
there is no match. -/
def reContentFind (path : String) : Option Nat :=
  reContentAux path.toList 0

/-! ## Filters -/

/-- Count of `-` characters in a path segment (Go `strings.Count(part, "-")`). -/
def hyphenCount (part : String) : Nat :=
  part.toList.countP (fun c => c = '-')

/-- `checkContent` (`uro.go` lines 394–416): reject when a segment has more
than 3 hyphens or the path starts with a cached prefix; otherwise keep, and
when the content regex matches, append the path up to the match end to the
prefix cache.  Returns (keep?, updated cache). -/
def checkContent (cache : List String) (path : String) : Bool × List String :=
  if (splitOnStr '/' path).any (fun part => hyphenCount part > 3) then (false, cache)
  else if cache.any (fun pre => hasPrefixStr path pre) then (false, cache)
  else
    match reContentFind path with
    | some m => (true, cache ++ [takeChars m path])
    | none => (true, cache)

/-- The built-in extension blacklist (`uro.go` lines 575–579). -/
def defaultBlacklist : List String :=
  ["css", "png", "jpg", "jpeg", "svg", "ico", "webp", "scss",
   "tif", "tiff", "ttf", "otf", "woff", "woff2", "gif",
   "pdf", "bmp", "eot", "mp3", "mp4", "avi"]

/-- The vulnerable parameter names (`uro.go` lines 582–620). -/
def vulnParams : List String :=
  ["file", "document", "folder", "root", "path",
   "pg", "style", "pdf", "template", "php_path",
   "doc", "page", "name", "cat", "dir", "action",
   "board", "date", "detail", "download", "prefix",
   "include", "inc", "locate", "show", "site",
   "type", "view", "content", "layout", "mod",
   "conf", "daemon", "upload", "log", "ip", "cli",
   "cmd", "exec", "command", "execute", "ping",
   "query", "jump", "code", "reg", "do", "func",
   "arg", "option", "load", "process", "step",
   "read", "function", "req", "feature", "exe",
   "module", "payload", "run", "print",
   "callback", "checkout", "checkout_url", "continue",
   "data", "dest", "destination", "domain", "feed",
   "file_name", "file_url", "folder_url", "forward",
   "from_url", "go", "goto", "host", "html",
   "image_url", "img_url", "load_file", "load_url",
   "login_url", "logout", "navigation", "next",
   "next_page", "Open", "out", "page_url", "port",
   "redir", "redirect", "redirect_to", "redirect_uri",
   "redirect_url", "reference", "return", "return_path",
   "return_to", "returnTo", "return_url", "rt", "rurl",
   "target", "to", "uri", "url", "val", "validate",
   "window", "q", "s", "search", "lang", "keyword",
   "keywords", "year", "email", "p", "jsonp", "api_key",
   "api", "password", "emailto", "token", "username",
   "csrf_token", "unsubscribe_token", "id", "item", "page_id",
   "month", "immagine", "list_type", "terms", "categoryid",
   "key", "l", "begindate", "enddate", "select", "report",
   "role", "update", "user", "sort", "where", "params",
   "row", "table", "from", "sel", "results", "sleep",
   "fetch", "order", "column", "field", "delete", "string",
   "number", "filter", "access", "admin", "dbg", "debug",
   "edit", "grant", "test", "alter", "clone", "create",
   "disable", "enable", "make", "modify", "rename",
   "reset", "shell", "toggle", "adm", "cfg",
   "open", "img", "filename", "preview", "activity"]

/-- The processor configuration produced by `setupFilters`. -/
structure Config where
  filters : List String
  extList : List String
  strict : Bool
  keepSlash : Bool
deriving DecidableEq, Repr

/-- `checkWhitelist` (`uro.go` lines 368–379). -/
def checkWhitelist (cfg : Config) (path : String) : Bool :=
  let ext := getExtension path
  if ext = "" then !cfg.strict else cfg.extList.contains ext

/-- `checkBlacklist` (`uro.go` lines 381–392): extensionless paths are always
kept; otherwise keep iff the extension is not in the list. -/
def checkBlacklist (cfg : Config) (path : String) : Bool :=
  let ext := getExtension path
  if ext = "" then true else !cfg.extList.contains ext

/-- `checkExt` of `internal/filter` (blacklist/whitelist helper):
(has-extension?, extension-in-list?). -/
def checkExtPkg (path : String) (extList : List String) : Bool × Bool :=
  let ext := getExtension path
  if ext = "" then (false, false)
  else if extList.contains ext then (true, true)
  else (true, false)

/-- `BlacklistFilter.Apply` of `internal/filter`:
`!inList || (!strict && !hasExt)`. -/
def blacklistApplyPkg (strict : Bool) (extList : List String) (path : String) : Bool :=
  let r := checkExtPkg path extList
  !r.2 || (!strict && !r.1)

/-- `checkVuln` (`uro.go` lines 418–425). -/
def checkVuln (params : Params) : Bool :=
  params.any (fun kv => vulnParams.contains kv.1)

/-- The pure (state-free) filters of `applyFilter` (`uro.go` lines 345–366);
`removecontent` is handled separately because it mutates the prefix cache. -/
def pureFilterA (cfg : Config) (name path : String) (params : Params) : Bool :=
  if name = "hasext" then hasExtension path
  else if name = "noext" then !hasExtension path
  else if name = "hasparams" then !params.isEmpty
  else if name = "noparams" then params.isEmpty
  else if name = "whitelist" then checkWhitelist cfg path
  else if name = "blacklist" then checkBlacklist cfg path
  else if name = "vuln" then checkVuln params
  else true

/-- One filter application, threading the content-prefix cache. -/
def applyFilter1 (cfg : Config) (cache : List String) (name path : String)
    (params : Params) : Bool × List String :=
  if name = "removecontent" then checkContent cache path
  else (pureFilterA cfg name path params, cache)

/-- `applyFilters` (`uro.go` lines 336–343): AND of the active filters in
order, short-circuiting on the first rejection; the prefix cache is threaded
through (only `removecontent` changes it). -/
def applyFiltersFn (cfg : Config) (path : String) (params : Params) :
    List String → List String → Bool × List String
  | [], cache => (true, cache)
  | f :: fs, cache =>
    let r := applyFilter1 cfg cache f path params
    if r.1 then applyFiltersFn cfg path params fs r.2 else (false, r.2)

/-! ## Filter setup (`uro.go` lines 207–273, 488–514, 550–572 and
`internal/processor.setupFilters`, `pkg/urlutil.CleanArgs`) -/

/-- `normalizeFilterName` (`uro.go` lines 550–563). -/
def normalizeFilterName (name : String) : String :=
  if name = "hasparam" then "hasparams"
  else if name = "noparam" then "noparams"
  else if name = "hasexts" then "hasext"
  else if name = "noexts" then "noext"
  else name

/-- `isValidFilter` (`uro.go` lines 565–572); also the name set of the
`internal/filter` registry. -/
def isValidFilter (name : String) : Bool :=
  name = "hasext" || name = "noext" || name = "hasparams" || name = "noparams" ||
  name = "whitelist" || name = "blacklist" || name = "removecontent" || name = "vuln"

/-- `cleanArgs` of `uro.go` (lines 488–514): trim, split comma lists, lower,
de-duplicate.  The Go version collects into a map (arbitrary order); the model
keeps first-occurrence order. -/
def cleanArgsGo (args : List String) : List String :=
  args.foldl
    (fun acc arg =>
      let arg := trimSpace arg
      if arg = "" then acc
      else if arg.toList.contains ',' then
        (splitOnStr ',' arg).foldl
          (fun a part =>
            let part := trimSpace (toLowerStr part)
            if part = "" then a else addIfAbsent a part)
          acc
      else addIfAbsent acc (toLowerStr arg))
    []

/-- `CleanArgs` of `pkg/urlutil`: like `cleanArgsGo` but also splits arguments
on spaces when there is no comma. -/
def cleanArgsUrlutil (args : List String) : List String :=
  args.foldl
    (fun acc arg =>
      let arg := trimSpace arg
      if arg = "" then acc
      else if arg.toList.contains ',' then
        (splitOnStr ',' arg).foldl
          (fun a part =>
            let part := trimSpace (toLowerStr part)
            if part = "" then a else addIfAbsent a part)
          acc
      else if arg.toList.contains ' ' then
        (splitOnStr ' ' arg).foldl
          (fun a part =>
            let part := trimSpace (toLowerStr part)
            if part = "" then a else addIfAbsent a part)
          acc
      else addIfAbsent acc (toLowerStr arg))
    []

/-- The options accepted by `uro.NewProcessor`. -/
structure Options where
  whitelist : List String
  blacklist : List String
  filters : List String
  keepSlash : Bool

/-- `Processor.setupFilters` of `uro.go` (lines 207–273).  Invalid user filter
names are silently skipped (`if isValidFilter(normalized)` with no else
branch); construction never fails. -/
def uroSetupFilters (opts : Options) : Config :=
  let filters := cleanArgsGo opts.filters
  let keepContent := filters.contains "keepcontent"
  let allExts := filters.contains "allexts"
  let keepSlash := filters.contains "keepslash" || opts.keepSlash
  let base : List String := if keepContent then [] else ["removecontent"]
  let extPart : List String × List String :=
    if allExts then ([], [])
    else if !opts.whitelist.isEmpty then (["whitelist"], cleanArgsGo opts.whitelist)
    else (["blacklist"],
      if !opts.blacklist.isEmpty then cleanArgsGo opts.blacklist else defaultBlacklist)
  let userFilters := (filters.filter
      (fun f => !(f = "keepcontent" || f = "keepslash" || f = "allexts"))).filterMap
      (fun f =>
        let n := normalizeFilterName f
        if isValidFilter n then some n else none)
  { filters := base ++ extPart.1 ++ userFilters,
    extList := extPart.2,
    strict := filters.contains "hasext" || filters.contains "noext",
    keepSlash := keepSlash }

/-- The user-filter loop of `internal/processor.setupFilters`: stops with
`error "invalid filter: f"` at the first unrecognized name. -/
def internalAddUserFilters : List String → List String → Except String (List String)
  | [], acc => Except.ok acc
  | f :: rest, acc =>
    if f = "keepcontent" || f = "keepslash" || f = "allexts" then
      internalAddUserFilters rest acc
    else if isValidFilter (normalizeFilterName f) then
      internalAddUserFilters rest (acc ++ [normalizeFilterName f])
    else Except.error ("invalid filter: " ++ f)

/-- `internal/processor.setupFilters`: returns the active filter-name list or
a hard setup error for an unrecognized filter name.  `whitelistMode` is
`config.IsWhitelistMode()`. -/
def internalSetupFilters (whitelistMode : Bool) (cfgFilters : List String) :
    Except String (List String) :=
  let filters := cleanArgsUrlutil cfgFilters
  let base : List String :=
    (if filters.contains "keepcontent" then [] else ["removecontent"]) ++
    (if filters.contains "allexts" then []
     else if whitelistMode then ["whitelist"] else ["blacklist"])
  internalAddUserFilters filters base

/-- The configuration of `uro.NewProcessor(nil)`. -/
def defaultConfig : Config := uroSetupFilters ⟨[], [], [], false⟩

/-! ## The processor state and `processURL` (`uro.go` lines 72–127, 275–334) -/

/-- host → path → list of kept parameter sets. -/
abbrev UrlMap := List (String × List (String × List Params))

/-- The mutable state of a `Processor`. -/
structure ProcState where
  urlMap : UrlMap
  paramsSeen : List String
  patternsSeen : List String
  contentPrefixCache : List String
deriving Repr

/-- The state of a freshly constructed processor. -/
def freshState : ProcState := ⟨[], [], [], []⟩

/-- `if _, ok := p.urlMap[host]; !ok { p.urlMap[host] = make(...) }`. -/
def ensureHost (m : UrlMap) (host : String) : UrlMap :=
  match alookup host m with
  | some _ => m
  | none => aupdate host [] m

/-- Lookup of the parameter-set list stored for `(host, path)`. -/
def lookup2 (m : UrlMap) (host path : String) : Option (List Params) :=
  match alookup host m with
  | some pm => alookup path pm
  | none => none

/-- `Processor.processURL` (`uro.go` lines 275–334) on a decomposed URL:
returns (kept?, new state). -/
def stepURL (cfg : Config) (st : ProcState) (host path query : String) :
    Bool × ProcState :=
  let params := paramsToMap query
  let newP := newParamsOf st.paramsSeen params
  let fr := applyFiltersFn cfg path params cfg.filters st.contentPrefixCache
  if !fr.1 then (false, { st with contentPrefixCache := fr.2 })
  else
    let seen' := st.paramsSeen ++ newP
    let um0 := ensureHost st.urlMap host
    let hostMap := (alookup host um0).getD []
    match alookup path hostMap with
    | none =>
      let stored : List Params := if params.isEmpty then [] else [params]
      if reIntMatch path then
        if st.patternsSeen.contains (createPattern path) then
          (false, { st with contentPrefixCache := fr.2, paramsSeen := seen', urlMap := um0 })
        else
          (true,
            { st with
              contentPrefixCache := fr.2
              paramsSeen := seen'
              patternsSeen := st.patternsSeen ++ [createPattern path]
              urlMap := aupdate host (aupdate path stored hostMap) um0 })
      else
        (true,
          { st with
            contentPrefixCache := fr.2
            paramsSeen := seen'
            urlMap := aupdate host (aupdate path stored hostMap) um0 })
    | some lst =>
      if !newP.isEmpty then
        (true,
          { st with
            contentPrefixCache := fr.2
            paramsSeen := seen'
            urlMap := aupdate host (aupdate path (lst ++ [params]) hostMap) um0 })
      else if !params.isEmpty && compareParams lst params then
        (true,
          { st with
            contentPrefixCache := fr.2
            paramsSeen := seen'
            urlMap := aupdate host (aupdate path (lst ++ [params]) hostMap) um0 })
      else
        (false, { st with contentPrefixCache := fr.2, paramsSeen := seen', urlMap := um0 })

/-! ## Line normalisation and URL parsing (`Processor.Process`,
`uro.go` lines 108–127) -/

/-- Normalisation of an input line after UTF-8 sanitisation: trim whitespace
and, unless `keepSlash`, one trailing `/`. -/
def normalizeLine (keepSlash : Bool) (s : String) : String :=
  let t := trimSpace s
  if keepSlash then t else trimSuffixSlash t

/-- Split at the first `"://"`. -/
def splitScheme : List Char → Option (List Char × List Char)
  | [] => none
  | ':' :: '/' :: '/' :: rest => some ([], rest)
  | c :: rest => (splitScheme rest).map (fun p => (c :: p.1, p.2))

/-- Model of `net/url.Parse` restricted to the plain absolute URLs the claims
use (`scheme://host/path?query`, no userinfo, fragment or percent escapes):
returns (scheme://host, path, raw query); `none` both for unparsable input and
for an empty host, which `Process` treats identically (drop the line). -/
def parseURL (s : String) : Option (String × String × String) :=
  match splitScheme s.toList with
  | none => none
  | some (scheme, rest) =>
    let auth := rest.takeWhile (fun c => !(c = '/' || c = '?'))
    if auth.isEmpty then none
    else
      let after := rest.drop auth.length
      let path := after.takeWhile (fun c => !(c = '?'))
      let query : List Char :=
        match after.drop path.length with
        | '?' :: q => q
        | _ => []
      some (String.mk (scheme ++ [':', '/', '/'] ++ auth), String.mk path, String.mk query)

/-- `Processor.Process` (`uro.go` lines 108–127), after UTF-8 sanitisation:
normalise, drop empty lines and unparsable/host-less URLs, then `processURL`. -/
def ProcessGo (cfg : Config) (st : ProcState) (rawURL : String) : Bool × ProcState :=
  let r := normalizeLine cfg.keepSlash rawURL
  if r = "" then (false, st)
  else
    match parseURL r with
    | none => (false, st)
    | some hpq => stepURL cfg st hpq.1 hpq.2.1 hpq.2.2

/-- Process a list of lines in order, collecting each keep decision
(`ProcessReader` submits lines one by one in input order). -/
def runLines (cfg : Config) : ProcState → List String → List Bool × ProcState
  | st, [] => ([], st)
  | st, l :: rest =>
    let r := ProcessGo cfg st l
    let rr := runLines cfg r.2 rest
    (r.1 :: rr.1, rr.2)

/-! ## Result enumeration (`uro.go` lines 146–195) -/

/-- `Processor.Results` (`uro.go` lines 146–160). -/
def resultsGo (st : ProcState) : List String :=
  st.urlMap.foldl
    (fun acc hp =>
      hp.2.foldl
        (fun acc2 pp =>
          if !pp.2.isEmpty then
            pp.2.foldl (fun a ps => a ++ [hp.1 ++ pp.1 ++ mapToQuery ps]) acc2
          else acc2 ++ [hp.1 ++ pp.1])
        acc)
    []

/-- `Processor.WriteResults` (`uro.go` lines 163–180), modelled as the full
string written to the sink (`Fprintln` appends a newline to each URL). -/
def writeResultsStr (st : ProcState) : String :=
  st.urlMap.foldl
    (fun acc hp =>
      hp.2.foldl
        (fun acc2 pp =>
          if !pp.2.isEmpty then
            pp.2.foldl (fun a ps => a ++ hp.1 ++ pp.1 ++ mapToQuery ps ++ "\n") acc2
          else acc2 ++ hp.1 ++ pp.1 ++ "\n")
        acc)
    ""

/-- `Processor.Count` (`uro.go` lines 183–195). -/
def countGo (st : ProcState) : Nat :=
  st.urlMap.foldl
    (fun acc hp =>
      hp.2.foldl
        (fun a pp => if !pp.2.isEmpty then a + pp.2.length else a + 1)
        acc)
    0

/-! ## UTF-8 sanitisation (`strings.ToValidUTF8(rawURL, "")`, `uro.go`
line 110 and `pkg/urlutil.SanitizeUTF8`), on byte lists -/

/-- UTF-8 continuation byte `10xxxxxx`. -/
def isContByte (b : Nat) : Bool := decide (0x80 ≤ b) && decide (b ≤ 0xBF)

/-- Allowed second byte after an `E0`–`EF` leader (excludes overlong forms and
surrogates, as Go `unicode/utf8` does). -/
def e2ok (b1 b2 : Nat) : Bool :=
  if b1 = 0xE0 then decide (0xA0 ≤ b2) && decide (b2 ≤ 0xBF)
  else if b1 = 0xED then decide (0x80 ≤ b2) && decide (b2 ≤ 0x9F)
  else isContByte b2

/-- Allowed second byte after an `F0`–`F4` leader (excludes overlong forms and
values above `U+10FFFF`). -/
def f2ok (b1 b2 : Nat) : Bool :=
  if b1 = 0xF0 then decide (0x90 ≤ b2) && decide (b2 ≤ 0xBF)
  else if b1 = 0xF4 then decide (0x80 ≤ b2) && decide (b2 ≤ 0x8F)
  else isContByte b2

/-- Length (1–4) of the valid UTF-8 sequence at the front of the list, `none`
when the front is not a valid sequence. -/
def utf8ChunkLen : List Nat → Option Nat
  | [] => none
  | b1 :: t1 =>
    if b1 ≤ 0x7F then some 1
    else if decide (0xC2 ≤ b1) && decide (b1 ≤ 0xDF) then
      match t1 with
      | b2 :: _ => if isContByte b2 then some 2 else none
      | [] => none
    else if decide (0xE0 ≤ b1) && decide (b1 ≤ 0xEF) then
      match t1 with
      | b2 :: b3 :: _ => if e2ok b1 b2 && isContByte b3 then some 3 else none
      | _ => none
    else if decide (0xF0 ≤ b1) && decide (b1 ≤ 0xF4) then
      match t1 with
      | b2 :: b3 :: b4 :: _ =>
        if f2ok b1 b2 && isContByte b3 && isContByte b4 then some 4 else none
      | _ => none
    else none

theorem utf8ChunkLen_bounds : ∀ l n, utf8ChunkLen l = some n → 1 ≤ n ∧ n ≤ l.length := by
  intro l n h
  cases l with
  | nil => simp [utf8ChunkLen] at h
  | cons b1 t1 =>
    cases t1 with
    | nil =>
      simp only [utf8ChunkLen] at h
      split_ifs at h <;> simp_all <;> omega
    | cons b2 t2 =>
      cases t2 with
      | nil =>
        simp only [utf8ChunkLen] at h
        split_ifs at h <;> simp_all <;> omega
      | cons b3 t3 =>
        cases t3 with
        | nil =>
          simp only [utf8ChunkLen] at h
          split_ifs at h <;> simp_all <;> omega
        | cons b4 t4 =>
          simp only [utf8ChunkLen] at h
          split_ifs at h <;> simp_all <;> omega

/-- `strings.ToValidUTF8(s, "")` on the byte representation: copy each valid
UTF-8 sequence, drop each invalid byte (with an empty replacement, dropping
per byte equals Go replacing each maximal invalid run by `""`). -/
def goToValidUTF8 : List Nat → List Nat
  | [] => []
  | b :: rest =>
    match h : utf8ChunkLen (b :: rest) with
    | some n => (b :: rest).take n ++ goToValidUTF8 ((b :: rest).drop n)
    | none => goToValidUTF8 rest
termination_by bs => bs.length
decreasing_by
  · have hb := utf8ChunkLen_bounds _ n h
    simp only [List.length_drop]
    simp at hb ⊢
    omega
  · simp

/-- Whether a byte list is entirely valid UTF-8. -/
def validUTF8 : List Nat → Bool
  | [] => true
  | b :: rest =>
    match h : utf8ChunkLen (b :: rest) with
    | some n => validUTF8 ((b :: rest).drop n)
    | none => false
termination_by bs => bs.length
decreasing_by
  have hb := utf8ChunkLen_bounds _ n h
  simp only [List.length_drop]
  simp at hb ⊢
  omega

theorem goToValidUTF8_nil : goToValidUTF8 [] = [] := by
  unfold goToValidUTF8
  rfl

theorem goToValidUTF8_some (b : Nat) (rest : List Nat) (n : Nat)
    (h : utf8ChunkLen (b :: rest) = some n) :
    goToValidUTF8 (b :: rest) = (b :: rest).take n ++ goToValidUTF8 ((b :: rest).drop n) := by
  conv_lhs => unfold goToValidUTF8
  split
  · next n' h' =>
    rw [h] at h'
    injection h' with h''
    rw [h'']
  · next h' => rw [h] at h'; exact absurd h' (by simp)

theorem goToValidUTF8_none (b : Nat) (rest : List Nat)
    (h : utf8ChunkLen (b :: rest) = none) :
    goToValidUTF8 (b :: rest) = goToValidUTF8 rest := by
  conv_lhs => unfold goToValidUTF8
  split
  · next n' h' => rw [h] at h'; exact absurd h' (by simp)
  · rfl

theorem validUTF8_nil : validUTF8 [] = true := by
  unfold validUTF8
  rfl

theorem validUTF8_some (b : Nat) (rest : List Nat) (n : Nat)
    (h : utf8ChunkLen (b :: rest) = some n) :
    validUTF8 (b :: rest) = validUTF8 ((b :: rest).drop n) := by
  conv_lhs => unfold validUTF8
  split
  · next n' h' =>
    rw [h] at h'
    injection h' with h''
    rw [h'']
  · next h' => rw [h] at h'; exact absurd h' (by simp)

theorem validUTF8_none (b : Nat) (rest : List Nat)
    (h : utf8ChunkLen (b :: rest) = none) :
    validUTF8 (b :: rest) = false := by
  conv_lhs => unfold validUTF8
  split
  · next n' h' => rw [h] at h'; exact absurd h' (by simp)
  · rfl

theorem utf8ChunkLen_stable : ∀ l n xs, utf8ChunkLen l = some n →
    utf8ChunkLen (l.take n ++ xs) = some n := by
  intro l n xs h
  cases l with
  | nil => simp [utf8ChunkLen] at h
  | cons b1 t1 =>
    cases t1 with
    | nil =>
      simp only [utf8ChunkLen] at h
      split_ifs at h
      all_goals (try simp at h)
      all_goals (subst h; simp [utf8ChunkLen, *])
    | cons b2 t2 =>
      cases t2 with
      | nil =>
        simp only [utf8ChunkLen] at h
        split_ifs at h
        all_goals (try simp at h)
        all_goals (subst h; simp [utf8ChunkLen, *])
      | cons b3 t3 =>
        cases t3 with
        | nil =>
          simp only [utf8ChunkLen] at h
          split_ifs at h
          all_goals (try simp at h)
          all_goals (subst h; simp [utf8ChunkLen, *])
        | cons b4 t4 =>
          simp only [utf8ChunkLen] at h
          split_ifs at h
          all_goals (try simp at h)
          all_goals (subst h; simp [utf8ChunkLen, *])

theorem goToValidUTF8_of_valid : ∀ (N : Nat) (bs : List Nat), bs.length ≤ N →
    validUTF8 bs = true → goToValidUTF8 bs = bs := by
  intro N
  induction N with
  | zero =>
    intro bs hl _
    have hb : bs = [] := List.eq_nil_of_length_eq_zero (Nat.le_zero.mp hl)
    subst hb
    exact goToValidUTF8_nil
  | succ N ih =>
    intro bs hl hv
    cases bs with
    | nil => exact goToValidUTF8_nil
    | cons b rest =>
      cases hc : utf8ChunkLen (b :: rest) with
      | none => rw [validUTF8_none _ _ hc] at hv; exact absurd hv (by simp)
      | some n =>
        rw [goToValidUTF8_some _ _ _ hc]
        rw [validUTF8_some _ _ _ hc] at hv
        have hb := utf8ChunkLen_bounds _ _ hc
        have hlen : ((b :: rest).drop n).length ≤ N := by
          simp only [List.length_drop, List.length_cons]
          simp only [List.length_cons] at hl
          simp only [List.length_cons] at hb
          omega
        rw [ih _ hlen hv]
        exact List.take_append_drop n (b :: rest)

theorem validUTF8_goToValidUTF8 : ∀ (N : Nat) (bs : List Nat), bs.length ≤ N →
    validUTF8 (goToValidUTF8 bs) = true := by
  intro N
  induction N with
  | zero =>
    intro bs hl
    have hb : bs = [] := List.eq_nil_of_length_eq_zero (Nat.le_zero.mp hl)
    subst hb
    rw [goToValidUTF8_nil]
    exact validUTF8_nil
  | succ N ih =>
    intro bs hl
    cases bs with
    | nil => rw [goToValidUTF8_nil]; exact validUTF8_nil
    | cons b rest =>
      cases hc : utf8ChunkLen (b :: rest) with
      | none =>
        rw [goToValidUTF8_none _ _ hc]
        exact ih rest (by simp at hl ⊢; omega)
      | some n =>
        rw [goToValidUTF8_some _ _ _ hc]
        have hb := utf8ChunkLen_bounds _ _ hc
        have hstab := utf8ChunkLen_stable _ _ (goToValidUTF8 ((b :: rest).drop n)) hc
        have htake : (b :: rest).take n = b :: rest.take (n - 1) := by
          cases n with
          | zero => exact absurd hb.1 (by decide)
          | succ m => simp
        have hstab2 : utf8ChunkLen (b :: (rest.take (n - 1) ++ goToValidUTF8 ((b :: rest).drop n))) = some n := by
          rw [htake] at hstab
          simpa using hstab
        rw [htake]
        have : (b :: rest.take (n - 1)) ++ goToValidUTF8 ((b :: rest).drop n) =
            b :: (rest.take (n - 1) ++ goToValidUTF8 ((b :: rest).drop n)) := by simp
        rw [this]
        rw [validUTF8_some _ _ _ hstab2]
        have hdl : (b :: (rest.take (n - 1) ++ goToValidUTF8 ((b :: rest).drop n))).drop n =
            goToValidUTF8 ((b :: rest).drop n) := by
          have hlen2 : (b :: rest.take (n - 1)).length = n := by
            simp at hb ⊢
            omega
          have := List.drop_left (b :: rest.take (n - 1)) (goToValidUTF8 ((b :: rest).drop n))
          rw [hlen2] at this
          simpa using this
        rw [hdl]
        exact ih ((b :: rest).drop n)
          (by
            simp only [List.length_drop, List.length_cons]
            simp only [List.length_cons] at hl hb
            omega)

/-! ## Claim C8: characterisation of the query decoder -/

/-- Spec-side reading of one `&`-segment with respect to a target name `k`:
a valued segment with name `k` yields its value, a bare segment with name `k`
yields `""`, empty names and other names yield nothing. -/
def segVal (k : String) (pair : String) : Option String :=
  match splitN2Eq pair with
  | [a, b] => if a = "" then none else if a = k then some b else none
  | [a] => if a = "" then none else if a = k then some "" else none
  | _ => none

/-- Spec-side last-wins reading of a whole raw query for name `k`. -/
def specLastWins (q k : String) : Option String :=
  ((splitOnStr '&' q).filterMap (segVal k)).getLast?

theorem alookup_addSeg (m : Params) (pair k : String) :
    alookup k (addSeg m pair) =
      match segVal k pair with
      | some v => some v
      | none => alookup k m := by
  unfold addSeg segVal
  rcases hsp : splitN2Eq pair with _ | ⟨a, _ | ⟨b, _ | ⟨c, tail⟩⟩⟩
  · rfl
  · by_cases ha : a = ""
    · simp [ha]
    · by_cases hak : a = k
      · subst hak
        simp [ha, alookup_aupdate_self]
      · have hne : k ≠ a := fun hh => hak hh.symm
        simp [ha, hak, alookup_aupdate_other a k "" hne]
  · by_cases ha : a = ""
    · simp [ha]
    · by_cases hak : a = k
      · subst hak
        simp [ha, alookup_aupdate_self]
      · have hne : k ≠ a := fun hh => hak hh.symm
        simp [ha, hak, alookup_aupdate_other a k b hne]
  · rfl

theorem alookup_addSegs (k : String) :
    ∀ (segs : List String) (m : Params),
      alookup k (addSegs m segs) =
        match (segs.filterMap (segVal k)).getLast? with
        | some v => some v
        | none => alookup k m := by
  intro segs
  induction segs with
  | nil => intro m; rfl
  | cons pair rest ih =>
    intro m
    rw [addSegs, ih (addSeg m pair), alookup_addSeg, List.filterMap_cons]
    cases hv : segVal k pair with
    | none => rfl
    | some v =>
      cases hrest : rest.filterMap (segVal k) with
      | nil => rfl
      | cons w tl =>
        cases hg : (w :: tl).getLast? with
        | none => exact absurd (List.getLast?_eq_none_iff.mp hg) (by simp)
        | some x => simp [List.getLast?_cons_cons, hg]

theorem segVal_empty_name (pair : String) : segVal "" pair = none := by
  unfold segVal
  rcases splitN2Eq pair with _ | ⟨a, _ | ⟨b, _ | _⟩⟩
  · rfl
  · by_cases ha : a = "" <;> simp [ha]
  · by_cases ha : a = "" <;> simp [ha]
  · rfl

/-- C8: for every raw query string, the decoded map agrees with the spec-side
reading: split on `&`, split each segment on the first `=`, a valued segment
maps its name to the value, a bare name maps to `""`, empty names are
discarded, and duplicate names resolve last-wins. -/
theorem c8_query_decoder_last_wins (q k : String) :
    alookup k (paramsToMap q) = specLastWins q k ∧
    alookup "" (paramsToMap q) = none := by
  have main : ∀ k' : String, alookup k' (paramsToMap q) = specLastWins q k' := by
    intro k'
    unfold paramsToMap specLastWins
    by_cases hq : q = ""
    · subst hq
      have hsv : segVal k' "" = none := by
        unfold segVal splitN2Eq
        simp [splitOnStr, splitOnCh]
      simp [splitOnStr, splitOnCh, hsv, alookup]
    · rw [if_neg hq, alookup_addSegs]
      cases ((splitOnStr '&' q).filterMap (segVal k')).getLast? with
      | none => rfl
      | some v => rfl
  refine ⟨main k, ?_⟩
  rw [main ""]
  unfold specLastWins
  simp [segVal_empty_name]

/-! ## Claim C2: the content filter -/

/-- C2 counterexample: on a fresh cache the path `/docs` matches the content
pattern — case (c) of the claim — while neither (a) nor (b) holds, yet
`checkContent` KEEPS the URL (returning `true`) and merely caches the prefix;
so the filter does not reject exactly on (a) ∨ (b) ∨ (c) as claimed. -/
theorem c2_counterexample :
    checkContent [] "/docs" = (true, ["/docs"]) ∧
    reContentFind "/docs" = some 5 ∧
    (splitOnStr '/' "/docs").any (fun part => hyphenCount part > 3) = false := by
  refine ⟨by decide, by decide, by decide⟩

theorem checkContent_fst (cache : List String) (path : String) :
    (checkContent cache path).1 =
      !((splitOnStr '/' path).any (fun part => hyphenCount part > 3) ||
        cache.any (fun pre => hasPrefixStr path pre)) := by
  unfold checkContent
  by_cases hh : (splitOnStr '/' path).any (fun part => hyphenCount part > 3)
  · simp [hh]
  · by_cases hp : cache.any (fun pre => hasPrefixStr path pre)
    · simp [hh, hp]
    · cases hf : reContentFind path <;> simp [hh, hp, hf]

theorem checkContent_snd (cache : List String) (path : String) :
    (checkContent cache path).2 =
      if (checkContent cache path).1 then
        match reContentFind path with
        | some m => cache ++ [takeChars m path]
        | none => cache
      else cache := by
  unfold checkContent
  by_cases hh : (splitOnStr '/' path).any (fun part => hyphenCount part > 3)
  · simp [hh]
  · by_cases hp : cache.any (fun pre => hasPrefixStr path pre)
    · simp [hh, hp]
    · cases hf : reContentFind path <;> simp [hh, hp, hf]

/-- C2 amended: the default-on content filter rejects exactly when (a) some
path segment has more than 3 hyphens, or (b) the path starts with a cached
prefix; a case-(c) content-pattern match does not reject — the kept path's
prefix up to the match end is appended to the cache, so later paths sharing
it are rejected via (b). -/
theorem c2_content_filter_amended (cache : List String) (path : String) :
    ((checkContent cache path).1 =
      !((splitOnStr '/' path).any (fun part => hyphenCount part > 3) ||
        cache.any (fun pre => hasPrefixStr path pre))) ∧
    ((checkContent cache path).2 =
      if (checkContent cache path).1 then
        match reContentFind path with
        | some m => cache ++ [takeChars m path]
        | none => cache
      else cache) :=
  ⟨checkContent_fst cache path, checkContent_snd cache path⟩

/-! ## Claim C6: the blacklist filter -/

/-- C6 counterexample: with strict mode active (as produced by requesting the
`hasext` filter) the blacklist filter still keeps the extensionless path
`/a` — in both implementations — contradicting the claim that strict mode
removes the automatic pass-through for extensionless paths. -/
theorem c6_counterexample :
    (uroSetupFilters ⟨[], [], ["hasext"], false⟩).strict = true ∧
    checkBlacklist (uroSetupFilters ⟨[], [], ["hasext"], false⟩) "/a" = true ∧
    blacklistApplyPkg true defaultBlacklist "/a" = true ∧
    hasExtension "/a" = false := by
  refine ⟨by decide, by decide, by decide, by decide⟩

/-- C6 amended: the blacklist filter keeps a URL iff its last-segment
extension is absent or not in the blocked set; strict mode has no effect on
the blacklist filter (extensionless paths always pass), and the
`internal/filter` implementation agrees with the `uro.go` one. -/
theorem c6_blacklist_amended (cfg : Config) (path : String) :
    (checkBlacklist cfg path =
      (decide (getExtension path = "") || !cfg.extList.contains (getExtension path))) ∧
    (checkBlacklist { cfg with strict := true } path =
      checkBlacklist { cfg with strict := false } path) ∧
    blacklistApplyPkg cfg.strict cfg.extList path = checkBlacklist cfg path := by
  refine ⟨?_, rfl, ?_⟩
  · unfold checkBlacklist
    by_cases he : getExtension path = "" <;> simp [he]
  · unfold blacklistApplyPkg checkExtPkg checkBlacklist
    by_cases he : getExtension path = ""
    · simp [he]
    · by_cases hc : getExtension path ∈ cfg.extList
      · simp [he, hc]
      · simp [he, hc]

/-! ## Claim C5: unrecognized filter names at construction -/

/-- `true` iff an `Except` result is `ok`. -/
def isOkE (e : Except String (List String)) : Bool :=
  match e with
  | Except.ok _ => true
  | Except.error _ => false

/-- C5 counterexample: package-level construction (`uro.NewProcessor`, whose
`setupFilters` cannot fail) with the unrecognized filter name `bogus`
succeeds, producing the default chain with `bogus` silently dropped — no
setup error is reported. -/
theorem c5_counterexample :
    uroSetupFilters ⟨[], [], ["bogus"], false⟩ =
      { filters := ["removecontent", "blacklist"], extList := defaultBlacklist,
        strict := false, keepSlash := false } := by
  decide

theorem isOkE_internalAddUserFilters :
    ∀ (l acc : List String),
      isOkE (internalAddUserFilters l acc) =
        l.all (fun f => f = "keepcontent" || f = "keepslash" || f = "allexts" ||
                        isValidFilter (normalizeFilterName f)) := by
  intro l
  induction l with
  | nil => intro acc; rfl
  | cons f rest ih =>
    intro acc
    unfold internalAddUserFilters
    by_cases hs : f = "keepcontent" || f = "keepslash" || f = "allexts"
    · simp only [if_pos hs, List.all_cons, hs, Bool.true_or, Bool.true_and]
      exact ih acc
    · rw [if_neg hs]
      by_cases hv : isValidFilter (normalizeFilterName f)
      · simp only [if_pos hv, List.all_cons, hv, Bool.or_true, Bool.true_and]
        exact ih (acc ++ [normalizeFilterName f])
      · simp only [if_neg hv, List.all_cons]
        have hs' : (f = "keepcontent" || f = "keepslash" || f = "allexts") = false := by
          simpa using hs
        have hv' : isValidFilter (normalizeFilterName f) = false := by
          simpa using hv
        simp [isOkE, hs', hv']

/-- C5 amended: the internal `URLProcessor` construction fails fast -
`setupFilters` returns a hard error iff the cleaned filter list contains an
unrecognized name (before any line is processed) - but the package-level
`uro.Processor` construction cannot fail: it silently drops unrecognized
names, and every name in its active chain is a recognized filter. -/
theorem c5_filter_setup_amended :
    (∀ (wm : Bool) (fs : List String),
      isOkE (internalSetupFilters wm fs) =
        (cleanArgsUrlutil fs).all
          (fun f => f = "keepcontent" || f = "keepslash" || f = "allexts" ||
                    isValidFilter (normalizeFilterName f))) ∧
    (∀ (opts : Options) (name : String),
      name ∈ (uroSetupFilters opts).filters → isValidFilter name = true) := by
  constructor
  · intro wm fs
    unfold internalSetupFilters
    exact isOkE_internalAddUserFilters _ _
  · intro opts name hmem
    simp only [uroSetupFilters] at hmem
    rw [List.mem_append] at hmem
    rcases hmem with hmem | h3
    · rw [List.mem_append] at hmem
      rcases hmem with h1 | h2
      · split_ifs at h1 <;> simp at h1
        subst h1
        rfl
      · split_ifs at h2 <;> simp at h2 <;> subst h2 <;> rfl
    · rw [List.mem_filterMap] at h3
      obtain ⟨f, _, hf⟩ := h3
      by_cases hv : isValidFilter (normalizeFilterName f)
      · rw [if_pos hv] at hf
        injection hf with hf'
        rw [← hf']
        exact hv
      · rw [if_neg hv] at hf
        exact absurd hf (by simp)

/-- Witness for the C5 amended theorem at concrete inputs. -/
theorem c5_filter_setup_amended_witness :
    isOkE (internalSetupFilters false ["bogus"]) =
      (cleanArgsUrlutil ["bogus"]).all
        (fun f => f = "keepcontent" || f = "keepslash" || f = "allexts" ||
                  isValidFilter (normalizeFilterName f)) ∧
    isValidFilter "removecontent" = true :=
  ⟨c5_filter_setup_amended.1 false ["bogus"],
   c5_filter_setup_amended.2 ⟨[], [], [], false⟩ "removecontent" (by decide)⟩

/-! ## State lemmas for `stepURL` -/

theorem lookup2_ensureHost (m : UrlMap) (host h' p' : String) :
    lookup2 (ensureHost m host) h' p' = lookup2 m h' p' := by
  unfold ensureHost lookup2
  cases hm : alookup host m with
  | some v => rfl
  | none =>
    by_cases he : h' = host
    · subst he
      rw [alookup_aupdate_self, hm]
      rfl
    · rw [alookup_aupdate_other host h' [] he]

theorem checkContent_snd_append (cache : List String) (path : String) :
    ∃ ext, (checkContent cache path).2 = cache ++ ext := by
  rw [checkContent_snd]
  by_cases h1 : (checkContent cache path).1
  · rw [if_pos h1]
    cases hf : reContentFind path with
    | none => exact ⟨[], by simp⟩
    | some m => exact ⟨[takeChars m path], rfl⟩
  · rw [if_neg h1]
    exact ⟨[], by simp⟩

theorem applyFiltersFn_snd_append (cfg : Config) (path : String) (params : Params) :
    ∀ (fs : List String) (P : List String),
      ∃ ext, (applyFiltersFn cfg path params fs P).2 = P ++ ext := by
  intro fs
  induction fs with
  | nil => intro P; exact ⟨[], by simp [applyFiltersFn]⟩
  | cons f rest ih =>
    intro P
    unfold applyFiltersFn
    by_cases hf : f = "removecontent"
    · subst hf
      simp only [applyFilter1, if_true]
      obtain ⟨e, he⟩ := checkContent_snd_append P path
      by_cases h1 : (checkContent P path).1
      · rw [if_pos h1]
        obtain ⟨e2, he2⟩ := ih (checkContent P path).2
        exact ⟨e ++ e2, by rw [he2, he, List.append_assoc]⟩
      · rw [if_neg h1]
        exact ⟨e, he⟩
    · simp only [applyFilter1, if_neg hf]
      by_cases hb : pureFilterA cfg f path params
      · simp only [hb, if_true]
        exact ih P
      · simp only [hb, Bool.false_eq_true, if_false]
        exact ⟨[], by simp⟩

/-! ## Claim C1: what a rejected line can and cannot mutate -/

/-- C1 counterexample: on a fresh default processor, `http://h/a/1` is kept;
the following line `http://h/a/2?z=1` passes the filter chain but is rejected
by the numeric-pattern deduplication — yet it adds its parameter name `z` to
the globally-seen parameter set, although no URL with parameter `z` was ever
accepted into the store; so a rejected line does modify processor state. -/
theorem c1_counterexample :
    (ProcessGo defaultConfig freshState "http://h/a/1").1 = true ∧
    (ProcessGo defaultConfig freshState "http://h/a/1").2.paramsSeen = [] ∧
    (ProcessGo defaultConfig (ProcessGo defaultConfig freshState "http://h/a/1").2
        "http://h/a/2?z=1").1 = false ∧
    (ProcessGo defaultConfig (ProcessGo defaultConfig freshState "http://h/a/1").2
        "http://h/a/2?z=1").2.paramsSeen = ["z"] := by
  refine ⟨by decide, by decide, by decide, by decide⟩

/-- C1 amended: a rejected line never changes the seen-pattern set or any
stored `(host, path)` entry, and a line rejected at the filter stage changes
no state but the content-prefix cache; however, a line that passes the filter
chain and is then rejected (by the numeric-pattern deduplication or as a
redundant parameter set) still records its globally-new parameter names in
the globally-seen set — so that set may contain names of URLs never accepted
into the store — and the content-prefix cache may retain a prefix appended
during filter evaluation. -/
theorem c1_rejected_line_state (cfg : Config) (st : ProcState) (host path query : String)
    (h : (stepURL cfg st host path query).1 = false) :
    ((stepURL cfg st host path query).2.patternsSeen = st.patternsSeen) ∧
    (∀ h' p', lookup2 (stepURL cfg st host path query).2.urlMap h' p' =
              lookup2 st.urlMap h' p') ∧
    ((stepURL cfg st host path query).2.paramsSeen = st.paramsSeen ∨
     (stepURL cfg st host path query).2.paramsSeen =
       st.paramsSeen ++ newParamsOf st.paramsSeen (paramsToMap query)) ∧
    ((applyFiltersFn cfg path (paramsToMap query) cfg.filters st.contentPrefixCache).1 = true →
      (stepURL cfg st host path query).2.paramsSeen =
        st.paramsSeen ++ newParamsOf st.paramsSeen (paramsToMap query)) ∧
    ((applyFiltersFn cfg path (paramsToMap query) cfg.filters st.contentPrefixCache).1 = false →
      (stepURL cfg st host path query).2 =
        { st with contentPrefixCache :=
            (applyFiltersFn cfg path (paramsToMap query) cfg.filters st.contentPrefixCache).2 }) ∧
    (∃ ext, (stepURL cfg st host path query).2.contentPrefixCache =
            st.contentPrefixCache ++ ext) := by
  unfold stepURL at h ⊢
  by_cases hf : (applyFiltersFn cfg path (paramsToMap query) cfg.filters st.contentPrefixCache).1
  · simp only [hf, Bool.not_true, Bool.false_eq_true, if_false] at h ⊢
    cases hp : alookup path ((alookup host (ensureHost st.urlMap host)).getD []) with
    | none =>
      simp only [hp] at h ⊢
      by_cases hint : reIntMatch path
      · simp only [hint, if_true] at h ⊢
        by_cases hseen : st.patternsSeen.contains (createPattern path)
        · simp only [hseen, if_true] at h ⊢
          refine ⟨by simp, ?_, Or.inr (by simp), by simp, by simp,
                 applyFiltersFn_snd_append cfg path (paramsToMap query) cfg.filters
                   st.contentPrefixCache⟩
          intro h' p'
          simp [lookup2_ensureHost]
        · simp only [hseen, Bool.false_eq_true, if_false] at h
          simp at h
      · simp only [hint, Bool.false_eq_true, if_false] at h
        simp at h
    | some lst =>
      simp only [hp] at h ⊢
      by_cases hnp : (newParamsOf st.paramsSeen (paramsToMap query)).isEmpty
      · simp only [hnp, Bool.not_true, Bool.false_eq_true, if_false] at h ⊢
        by_cases hcmp : (!(paramsToMap query).isEmpty && compareParams lst (paramsToMap query))
        · simp only [hcmp, if_true] at h
          simp at h
        · simp only [hcmp, Bool.false_eq_true, if_false] at h ⊢
          refine ⟨by simp, ?_, Or.inr (by simp), by simp, by simp,
                 applyFiltersFn_snd_append cfg path (paramsToMap query) cfg.filters
                   st.contentPrefixCache⟩
          intro h' p'
          simp [lookup2_ensureHost]
      · simp only [hnp] at h ⊢
        simp at h
  · simp only [Bool.not_eq_true] at hf
    simp only [hf, Bool.not_false, if_true] at h ⊢
    refine ⟨by simp, by simp, Or.inl (by simp), by simp [hf], by simp,
           applyFiltersFn_snd_append cfg path (paramsToMap query) cfg.filters
             st.contentPrefixCache⟩

theorem lookup2_aupdate2 (m : UrlMap) (host path : String)
    (hm : List (String × List Params)) (L : List Params) :
    lookup2 (aupdate host (aupdate path L hm) m) host path = some L := by
  unfold lookup2
  rw [alookup_aupdate_self]
  exact alookup_aupdate_self path L hm

theorem lookup2_of_alookup_getD (m : UrlMap) (host path : String) (lst : List Params)
    (h : alookup path ((alookup host m).getD []) = some lst) :
    lookup2 m host path = some lst := by
  unfold lookup2
  cases hm : alookup host m with
  | some pm => rw [hm] at h; exact h
  | none => rw [hm] at h; simp [alookup] at h

/-! ## Claim C4: the numeric-pattern generalizer -/

/-- C4: for a path that is new to its host and contains an all-digit segment
immediately before a `/` or the end of the path, the processor generalizes the
path with `createPattern` (split on `/`, all-digit segments become the digit
wildcard, other segments are literal-escaped, the join is truncated at the
last numeric segment): the URL is rejected iff the pattern is already in the
globally-shared seen-pattern set, otherwise the pattern is recorded and the
path inserted.  Concretely, on a fresh processor `/a/1` is kept, `/a/2`
dropped, `/a/1/2` kept and `/a/1/3` dropped. -/
theorem c4_pattern_generalizer (cfg : Config) (st : ProcState) (host path query : String)
    (hf : (applyFiltersFn cfg path (paramsToMap query) cfg.filters st.contentPrefixCache).1 = true)
    (hnew : alookup path ((alookup host (ensureHost st.urlMap host)).getD []) = none)
    (hint : reIntMatch path = true) :
    ((stepURL cfg st host path query).1 = !st.patternsSeen.contains (createPattern path)) ∧
    ((stepURL cfg st host path query).1 = true →
      (stepURL cfg st host path query).2.patternsSeen =
        st.patternsSeen ++ [createPattern path] ∧
      lookup2 (stepURL cfg st host path query).2.urlMap host path =
        some (if (paramsToMap query).isEmpty then [] else [paramsToMap query])) ∧
    ((stepURL cfg st host path query).1 = false →
      (stepURL cfg st host path query).2.patternsSeen = st.patternsSeen) ∧
    (runLines defaultConfig freshState
        ["http://h/a/1", "http://h/a/2", "http://h/a/1/2", "http://h/a/1/3"]).1 =
      [true, false, true, false] := by
  refine ⟨?_, ?_, ?_, by decide⟩ <;>
  · unfold stepURL
    simp only [hf, Bool.not_true, Bool.false_eq_true, if_false, hnew, hint, if_true]
    by_cases hseen : createPattern path ∈ st.patternsSeen
    · simp [hseen]
    · simp [hseen, lookup2_aupdate2]

/-- Witness for C4 at a concrete input: the first URL of the concrete run. -/
theorem c4_pattern_generalizer_witness :
    reIntMatch "/a/1" = true ∧
    (stepURL defaultConfig freshState "http://h" "/a/1" "").1 =
      !freshState.patternsSeen.contains (createPattern "/a/1") :=
  ⟨by decide,
   (c4_pattern_generalizer defaultConfig freshState "http://h" "/a/1" ""
      (by decide) (by decide) (by decide)).1⟩

/-! ## Claim C3: parameter-set novelty for an existing path -/

/-- C3: for a URL whose path already exists for its host (and which passes the
filters): if its parameter set has a name never seen globally, it is appended
unconditionally (even byte-for-byte duplicates) and those names become
globally seen; otherwise a non-empty set with a key outside the union of
stored keys is appended as well; otherwise the URL is dropped as redundant
and the stored list is unchanged.  Concretely, on a fresh processor
`http://h/p?a=1` is kept, `http://h/p?a=2` dropped, `http://h/p?a=1&b=2`
kept. -/
theorem c3_param_set_novelty (cfg : Config) (st : ProcState) (host path query : String)
    (lst : List Params)
    (hf : (applyFiltersFn cfg path (paramsToMap query) cfg.filters st.contentPrefixCache).1 = true)
    (hex : alookup path ((alookup host (ensureHost st.urlMap host)).getD []) = some lst) :
    ((stepURL cfg st host path query).1 =
      (!(newParamsOf st.paramsSeen (paramsToMap query)).isEmpty ||
       (!(paramsToMap query).isEmpty && compareParams lst (paramsToMap query)))) ∧
    ((stepURL cfg st host path query).1 = true →
      lookup2 (stepURL cfg st host path query).2.urlMap host path =
        some (lst ++ [paramsToMap query]) ∧
      (stepURL cfg st host path query).2.paramsSeen =
        st.paramsSeen ++ newParamsOf st.paramsSeen (paramsToMap query)) ∧
    ((stepURL cfg st host path query).1 = false →
      lookup2 (stepURL cfg st host path query).2.urlMap host path = some lst) ∧
    (runLines defaultConfig freshState
        ["http://h/p?a=1", "http://h/p?a=2", "http://h/p?a=1&b=2"]).1 =
      [true, false, true] := by
  have hl2 : lookup2 (ensureHost st.urlMap host) host path = some lst :=
    lookup2_of_alookup_getD _ _ _ _ hex
  refine ⟨?_, ?_, ?_, by decide⟩ <;>
  · unfold stepURL
    simp only [hf, Bool.not_true, Bool.false_eq_true, if_false, hex]
    by_cases hnp : (newParamsOf st.paramsSeen (paramsToMap query)).isEmpty
    · simp only [hnp, Bool.not_true, Bool.false_eq_true, if_false]
      by_cases hcmp : (!(paramsToMap query).isEmpty && compareParams lst (paramsToMap query))
      · simp [hcmp, lookup2_aupdate2]
      · simp only [hcmp, Bool.false_eq_true, if_false]
        simp [hnp, hcmp, hl2]
    · simp only [hnp, Bool.not_false, if_true]
      simp [hnp, lookup2_aupdate2]

/-- Witness for C3 at a concrete input: the second URL of the concrete run
(the state after `http://h/p?a=1` on a fresh default processor). -/
theorem c3_param_set_novelty_witness :
    (stepURL defaultConfig ⟨[("http://h", [("/p", [[("a", "1")]])])], ["a"], [], []⟩
        "http://h" "/p" "a=2").1 =
      (!(newParamsOf ["a"] (paramsToMap "a=2")).isEmpty ||
       (!(paramsToMap "a=2").isEmpty &&
        compareParams [[("a", "1")]] (paramsToMap "a=2"))) :=
  (c3_param_set_novelty defaultConfig ⟨[("http://h", [("/p", [[("a", "1")]])])], ["a"], [], []⟩
      "http://h" "/p" "a=2" [[("a", "1")]] (by decide) (by decide)).1

/-- Witness for the C1 amended theorem: the second line of the counterexample
run (pattern-rejected) instantiates the rejection hypothesis, and a
blacklist-rejected line instantiates the filter-stage implication. -/
theorem c1_rejected_line_state_witness :
    (stepURL defaultConfig ⟨[("http://h", [("/a/1", [])])], [], ["/a/\\d+"], []⟩
        "http://h" "/a/2" "z=1").1 = false ∧
    (stepURL defaultConfig ⟨[("http://h", [("/a/1", [])])], [], ["/a/\\d+"], []⟩
        "http://h" "/a/2" "z=1").2.patternsSeen = ["/a/\\d+"] ∧
    (stepURL defaultConfig freshState "http://h" "/x.css" "").2 =
      { freshState with contentPrefixCache :=
          (applyFiltersFn defaultConfig "/x.css" (paramsToMap "") defaultConfig.filters
            freshState.contentPrefixCache).2 } :=
  ⟨by decide,
   (c1_rejected_line_state defaultConfig ⟨[("http://h", [("/a/1", [])])], [], ["/a/\\d+"], []⟩
      "http://h" "/a/2" "z=1" (by decide)).1,
   (c1_rejected_line_state defaultConfig freshState "http://h" "/x.css" ""
      (by decide)).2.2.2.2.1 (by decide)⟩


/-! ## Claim C7: idempotent resubmission -/


theorem checkContent_snd_none (path : String) (hfind : reContentFind path = none) :
    ∀ cache : List String, (checkContent cache path).2 = cache := by
  intro cache
  rw [checkContent_snd, hfind]
  by_cases h1 : (checkContent cache path).1 <;> simp [h1]

theorem applyFiltersFn_none_preserve (cfg : Config) (path : String) (params : Params)
    (hfind : reContentFind path = none) :
    ∀ (fs : List String) (P : List String),
      (applyFiltersFn cfg path params fs P).2 = P := by
  intro fs
  induction fs with
  | nil => intro P; rfl
  | cons f rest ih =>
    intro P
    unfold applyFiltersFn
    by_cases hf : f = "removecontent"
    · subst hf
      simp only [applyFilter1, if_true]
      by_cases h1 : (checkContent P path).1
      · rw [if_pos h1, checkContent_snd_none path hfind P]
        exact ih P
      · rw [if_neg h1]
        exact checkContent_snd_none path hfind P
    · simp only [applyFilter1, if_neg hf]
      by_cases hb : pureFilterA cfg f path params
      · simp only [hb, if_true]
        exact ih P
      · simp only [hb, Bool.false_eq_true, if_false]

theorem applyFiltersFn_idem (cfg : Config) (path : String) (params : Params) :
    ∀ (fs : List String) (P P1 : List String),
      applyFiltersFn cfg path params fs P = (true, P1) →
      (applyFiltersFn cfg path params fs P1).2 = P1 := by
  intro fs
  induction fs with
  | nil =>
    intro P P1 h
    unfold applyFiltersFn at h ⊢
    have : P = P1 := congrArg Prod.snd h
    rw [← this]
  | cons f rest ih =>
    intro P P1 h
    unfold applyFiltersFn at h ⊢
    by_cases hf : f = "removecontent"
    · subst hf
      simp only [applyFilter1, if_true] at h ⊢
      by_cases h1 : (checkContent P path).1
      · rw [if_pos h1] at h
        cases hfind : reContentFind path with
        | none =>
          have hsndP : (checkContent P path).2 = P := checkContent_snd_none path hfind P
          rw [hsndP] at h
          have hP1 : P1 = P := by
            have hx := applyFiltersFn_none_preserve cfg path params hfind rest P
            rw [h] at hx
            simpa using hx
          subst hP1
          rw [if_pos h1, hsndP]
          exact applyFiltersFn_none_preserve cfg path params hfind rest _
        | some m =>
          have hsnd : (checkContent P path).2 = P ++ [takeChars m path] := by
            rw [checkContent_snd, if_pos h1, hfind]
          rw [hsnd] at h
          obtain ⟨ext, hext⟩ :=
            applyFiltersFn_snd_append cfg path params rest (P ++ [takeChars m path])
          have hP1ext : P1 = (P ++ [takeChars m path]) ++ ext := by
            rw [h] at hext
            simpa using hext
          have hmem : takeChars m path ∈ P1 := by
            rw [hP1ext]
            simp
          have hpre : hasPrefixStr path (takeChars m path) = true :=
            take_isPrefixOf m path.toList
          have hhyph : (splitOnStr '/' path).any (fun part => hyphenCount part > 3) = false := by
            have hc := checkContent_fst P path
            rw [h1] at hc
            cases hh : (splitOnStr '/' path).any (fun part => hyphenCount part > 3)
            · rfl
            · rw [hh] at hc
              simp at hc
          have hfst2 : (checkContent P1 path).1 = false := by
            rw [checkContent_fst]
            have hany : P1.any (fun pre => hasPrefixStr path pre) = true :=
              List.any_eq_true.mpr ⟨takeChars m path, hmem, hpre⟩
            simp [hany]
          have hsnd2 : (checkContent P1 path).2 = P1 := by
            rw [checkContent_snd, hfst2]
            simp
          rw [hfst2]
          simp only [Bool.false_eq_true, if_false]
          exact hsnd2
      · rw [if_neg h1] at h
        have : (false : Bool) = true := congrArg Prod.fst h
        exact absurd this (by simp)
    · simp only [applyFilter1, if_neg hf] at h ⊢
      by_cases hb : pureFilterA cfg f path params
      · simp only [hb, if_true] at h ⊢
        exact ih P P1 h
      · simp only [hb, Bool.false_eq_true, if_false] at h
        have : (false : Bool) = true := congrArg Prod.fst h
        exact absurd this (by simp)



theorem mem_seen_append_newParams (seen : List String) :
    ∀ (params : Params) (kv : String × String), kv ∈ params →
      kv.1 ∈ seen ++ newParamsOf seen params := by
  intro params
  induction params with
  | nil => intro kv h; simp at h
  | cons kv0 rest ih =>
    intro kv h
    unfold newParamsOf
    by_cases hs : seen.contains kv0.1
    · rw [if_pos hs]
      rcases List.mem_cons.mp h with heq | hmem
      · subst heq
        exact List.mem_append.mpr (Or.inl (List.elem_iff.mp hs))
      · exact ih kv hmem
    · rw [if_neg hs]
      rcases List.mem_cons.mp h with heq | hmem
      · subst heq
        exact List.mem_append.mpr (Or.inr (List.mem_cons_self _ _))
      · rcases List.mem_append.mp (ih kv hmem) with h1 | h2
        · exact List.mem_append.mpr (Or.inl h1)
        · exact List.mem_append.mpr (Or.inr (List.mem_cons_of_mem _ h2))

theorem newParamsOf_eq_nil (seen : List String) (params : Params)
    (h : ∀ kv ∈ params, kv.1 ∈ seen) : newParamsOf seen params = [] := by
  induction params with
  | nil => rfl
  | cons kv rest ih =>
    unfold newParamsOf
    have hk : kv.1 ∈ seen := h kv (by simp)
    rw [if_pos (List.elem_iff.mpr hk)]
    exact ih (fun kv' h' => h kv' (List.mem_cons_of_mem _ h'))

theorem mem_inner_addIfAbsent_fold (ps : Params) :
    ∀ (acc : List String) (x : String),
      x ∈ acc → x ∈ ps.foldl (fun a kv => addIfAbsent a kv.1) acc := by
  induction ps with
  | nil => intro acc x hx; exact hx
  | cons kv rest ih =>
    intro acc x hx
    exact ih (addIfAbsent acc kv.1) x ((mem_addIfAbsent acc kv.1 x).mpr (Or.inl hx))

theorem mem_inner_addIfAbsent_fold_of_mem (ps : Params) :
    ∀ (acc : List String) (kv : String × String),
      kv ∈ ps → kv.1 ∈ ps.foldl (fun a kv => addIfAbsent a kv.1) acc := by
  induction ps with
  | nil => intro acc kv h; simp at h
  | cons kv0 rest ih =>
    intro acc kv h
    rcases List.mem_cons.mp h with heq | hmem
    · subst heq
      exact mem_inner_addIfAbsent_fold rest (addIfAbsent acc kv.1) kv.1
        ((mem_addIfAbsent acc kv.1 kv.1).mpr (Or.inr rfl))
    · exact ih (addIfAbsent acc kv0.1) kv hmem

theorem mem_outer_fold_mono (lst : List Params) :
    ∀ (acc : List String) (x : String), x ∈ acc →
      x ∈ lst.foldl (fun a ps => ps.foldl (fun a2 kv => addIfAbsent a2 kv.1) a) acc := by
  induction lst with
  | nil => intro acc x hx; exact hx
  | cons p0 rest ih =>
    intro acc x hx
    simp only [List.foldl_cons]
    exact ih _ x (mem_inner_addIfAbsent_fold p0 acc x hx)

theorem mem_outer_fold (lst : List Params) :
    ∀ (acc : List String) (ps : Params) (kv : String × String),
      ps ∈ lst → kv ∈ ps →
      kv.1 ∈ lst.foldl (fun a ps => ps.foldl (fun a2 kv => addIfAbsent a2 kv.1) a) acc := by
  induction lst with
  | nil => intro acc ps kv h; simp at h
  | cons p0 rest ih =>
    intro acc ps kv hps hkv
    simp only [List.foldl_cons]
    rcases List.mem_cons.mp hps with heq | hmem
    · subst heq
      have h1 : kv.1 ∈ ps.foldl (fun a2 kv => addIfAbsent a2 kv.1) acc :=
        mem_inner_addIfAbsent_fold_of_mem ps acc kv hkv
      exact mem_outer_fold_mono rest _ kv.1 h1
    · exact ih _ ps kv hmem hkv

theorem mem_unionKeys (lst : List Params) (ps : Params) (kv : String × String)
    (hps : ps ∈ lst) (hkv : kv ∈ ps) : kv.1 ∈ unionKeys lst :=
  mem_outer_fold lst [] ps kv hps hkv

theorem compareParams_of_mem (lst : List Params) (params : Params)
    (h : params ∈ lst) : compareParams lst params = false := by
  unfold compareParams
  rw [List.any_eq_false]
  intro kv hkv
  have hm : kv.1 ∈ unionKeys lst := mem_unionKeys lst params kv h hkv
  simp [hm]



theorem stepURL_kept_filters (cfg : Config) (st : ProcState) (host path query : String)
    (h : (stepURL cfg st host path query).1 = true) :
    (applyFiltersFn cfg path (paramsToMap query) cfg.filters st.contentPrefixCache).1 = true := by
  by_cases hf : (applyFiltersFn cfg path (paramsToMap query) cfg.filters st.contentPrefixCache).1
  · exact hf
  · rw [Bool.not_eq_true] at hf
    unfold stepURL at h
    simp only [hf, Bool.not_false, if_true] at h
    simp at h

theorem stepURL_kept_paramsSeen (cfg : Config) (st : ProcState) (host path query : String)
    (h : (stepURL cfg st host path query).1 = true) :
    (stepURL cfg st host path query).2.paramsSeen =
      st.paramsSeen ++ newParamsOf st.paramsSeen (paramsToMap query) := by
  have hf := stepURL_kept_filters cfg st host path query h
  unfold stepURL at h ⊢
  simp only [hf, Bool.not_true, Bool.false_eq_true, if_false] at h ⊢
  cases hp : alookup path ((alookup host (ensureHost st.urlMap host)).getD []) with
  | none =>
    simp only [hp] at h ⊢
    by_cases hint : reIntMatch path
    · simp only [hint, if_true] at h ⊢
      by_cases hseen : createPattern path ∈ st.patternsSeen
      · simp [hseen] at h
      · simp [hseen]
    · simp only [hint, Bool.false_eq_true, if_false] at h ⊢
  | some lst =>
    simp only [hp] at h ⊢
    by_cases hnp : (newParamsOf st.paramsSeen (paramsToMap query)).isEmpty
    · simp only [hnp, Bool.not_true, Bool.false_eq_true, if_false] at h ⊢
      by_cases hcmp : (!(paramsToMap query).isEmpty && compareParams lst (paramsToMap query))
      · simp only [hcmp, if_true] at h ⊢
      · simp [hcmp] at h
    · simp only [hnp, Bool.not_false, if_true] at h ⊢

theorem stepURL_kept_cache (cfg : Config) (st : ProcState) (host path query : String)
    (h : (stepURL cfg st host path query).1 = true) :
    (stepURL cfg st host path query).2.contentPrefixCache =
      (applyFiltersFn cfg path (paramsToMap query) cfg.filters st.contentPrefixCache).2 := by
  have hf := stepURL_kept_filters cfg st host path query h
  unfold stepURL at h ⊢
  simp only [hf, Bool.not_true, Bool.false_eq_true, if_false] at h ⊢
  cases hp : alookup path ((alookup host (ensureHost st.urlMap host)).getD []) with
  | none =>
    simp only [hp] at h ⊢
    by_cases hint : reIntMatch path
    · simp only [hint, if_true] at h ⊢
      by_cases hseen : createPattern path ∈ st.patternsSeen
      · simp [hseen] at h
      · simp [hseen]
    · simp only [hint, Bool.false_eq_true, if_false] at h ⊢
  | some lst =>
    simp only [hp] at h ⊢
    by_cases hnp : (newParamsOf st.paramsSeen (paramsToMap query)).isEmpty
    · simp only [hnp, Bool.not_true, Bool.false_eq_true, if_false] at h ⊢
      by_cases hcmp : (!(paramsToMap query).isEmpty && compareParams lst (paramsToMap query))
      · simp only [hcmp, if_true] at h ⊢
      · simp [hcmp] at h
    · simp only [hnp, Bool.not_false, if_true] at h ⊢

theorem stepURL_kept_store (cfg : Config) (st : ProcState) (host path query : String)
    (h : (stepURL cfg st host path query).1 = true) :
    ∃ lst, lookup2 (stepURL cfg st host path query).2.urlMap host path = some lst ∧
           (paramsToMap query = [] ∨ paramsToMap query ∈ lst) := by
  have hf := stepURL_kept_filters cfg st host path query h
  unfold stepURL at h ⊢
  simp only [hf, Bool.not_true, Bool.false_eq_true, if_false] at h ⊢
  cases hp : alookup path ((alookup host (ensureHost st.urlMap host)).getD []) with
  | none =>
    simp only [hp] at h ⊢
    by_cases hint : reIntMatch path
    · simp only [hint, if_true] at h ⊢
      by_cases hseen : createPattern path ∈ st.patternsSeen
      · simp [hseen] at h
      · refine ⟨if (paramsToMap query).isEmpty then [] else [paramsToMap query], ?_, ?_⟩
        · simp [hseen, lookup2_aupdate2]
        · by_cases hpe : (paramsToMap query).isEmpty
          · exact Or.inl (by simpa using hpe)
          · simp [hpe]
    · simp only [hint, Bool.false_eq_true, if_false] at h ⊢
      refine ⟨if (paramsToMap query).isEmpty then [] else [paramsToMap query], ?_, ?_⟩
      · simp [lookup2_aupdate2]
      · by_cases hpe : (paramsToMap query).isEmpty
        · exact Or.inl (by simpa using hpe)
        · simp [hpe]
  | some lst =>
    simp only [hp] at h ⊢
    by_cases hnp : (newParamsOf st.paramsSeen (paramsToMap query)).isEmpty
    · simp only [hnp, Bool.not_true, Bool.false_eq_true, if_false] at h ⊢
      by_cases hcmp : (!(paramsToMap query).isEmpty && compareParams lst (paramsToMap query))
      · simp only [hcmp, if_true] at h ⊢
        exact ⟨lst ++ [paramsToMap query], by simp [lookup2_aupdate2], Or.inr (by simp)⟩
      · simp [hcmp] at h
    · simp only [hnp, Bool.not_false, if_true] at h ⊢
      exact ⟨lst ++ [paramsToMap query], by simp [lookup2_aupdate2], Or.inr (by simp)⟩



theorem stepURL_resubmission (cfg : Config) (st : ProcState) (host path query : String)
    (h : (stepURL cfg st host path query).1 = true) :
    stepURL cfg (stepURL cfg st host path query).2 host path query =
      (false, (stepURL cfg st host path query).2) := by
  have hseen := stepURL_kept_paramsSeen cfg st host path query h
  have hfil := stepURL_kept_filters cfg st host path query h
  have hcache := stepURL_kept_cache cfg st host path query h
  obtain ⟨lst, hl2, hmem⟩ := stepURL_kept_store cfg st host path query h
  set st' := (stepURL cfg st host path query).2 with hst'
  have hfil_pair : applyFiltersFn cfg path (paramsToMap query) cfg.filters
      st.contentPrefixCache = (true, st'.contentPrefixCache) := by
    rw [hcache, ← hfil]
  have hsnd2 : (applyFiltersFn cfg path (paramsToMap query) cfg.filters
      st'.contentPrefixCache).2 = st'.contentPrefixCache :=
    applyFiltersFn_idem cfg path (paramsToMap query) cfg.filters
      st.contentPrefixCache st'.contentPrefixCache hfil_pair
  have hkeys : ∀ kv ∈ paramsToMap query, kv.1 ∈ st'.paramsSeen := by
    intro kv hkv
    rw [hseen]
    exact mem_seen_append_newParams st.paramsSeen (paramsToMap query) kv hkv
  have hnp2 : newParamsOf st'.paramsSeen (paramsToMap query) = [] :=
    newParamsOf_eq_nil st'.paramsSeen (paramsToMap query) hkeys
  have hhost : ∃ hm', alookup host st'.urlMap = some hm' ∧ alookup path hm' = some lst := by
    unfold lookup2 at hl2
    cases halo : alookup host st'.urlMap with
    | some hm' =>
      rw [halo] at hl2
      exact ⟨hm', rfl, hl2⟩
    | none =>
      rw [halo] at hl2
      simp at hl2
  obtain ⟨hm', hh1, hh2⟩ := hhost
  have hens : ensureHost st'.urlMap host = st'.urlMap := by
    unfold ensureHost
    rw [hh1]
  unfold stepURL
  by_cases h2f : (applyFiltersFn cfg path (paramsToMap query) cfg.filters
      st'.contentPrefixCache).1
  · simp only [h2f, Bool.not_true, Bool.false_eq_true, if_false]
    rw [hens, hh1]
    simp only [Option.getD_some, hh2]
    simp only [hnp2, List.isEmpty_nil, Bool.not_true, Bool.false_eq_true, if_false]
    rcases hmem with hpe | hpmem
    · have hsnd2x := hsnd2
      rw [hpe] at hsnd2x
      simp only [hpe, List.isEmpty_nil, Bool.not_true, Bool.false_and,
        Bool.false_eq_true, if_false]
      rw [hsnd2x]
      simp
    · have hcmp : compareParams lst (paramsToMap query) = false :=
        compareParams_of_mem lst (paramsToMap query) hpmem
      simp only [hcmp, Bool.and_false, Bool.false_eq_true, if_false]
      rw [hsnd2]
      simp
  · rw [Bool.not_eq_true] at h2f
    simp only [h2f, Bool.not_false, if_true]
    rw [hsnd2]


/-- C7: re-submitting an identical URL twice yields exactly one kept
occurrence: for every URL string and processor state, if the first submission
is kept, an immediately repeated identical submission is not kept and leaves
the processor state (in particular the store) exactly unchanged. -/
theorem c7_identical_resubmission (cfg : Config) (st : ProcState) (rawURL : String)
    (h : (ProcessGo cfg st rawURL).1 = true) :
    ProcessGo cfg (ProcessGo cfg st rawURL).2 rawURL =
      (false, (ProcessGo cfg st rawURL).2) := by
  unfold ProcessGo at h ⊢
  by_cases hr : normalizeLine cfg.keepSlash rawURL = ""
  · rw [if_pos hr] at h
    simp at h
  · simp only [if_neg hr] at h ⊢
    cases hp : parseURL (normalizeLine cfg.keepSlash rawURL) with
    | none =>
      rw [hp] at h
    | some hpq =>
      rw [hp] at h
      exact stepURL_resubmission cfg st hpq.1 hpq.2.1 hpq.2.2 h

/-- Witness for C7 at a concrete input. -/
theorem c7_identical_resubmission_witness :
    (ProcessGo defaultConfig freshState "http://h/p?a=1").1 = true ∧
    ProcessGo defaultConfig (ProcessGo defaultConfig freshState "http://h/p?a=1").2
        "http://h/p?a=1" =
      (false, (ProcessGo defaultConfig freshState "http://h/p?a=1").2) :=
  ⟨by decide, c7_identical_resubmission defaultConfig freshState "http://h/p?a=1" (by decide)⟩



/-! ## Claim C10: agreement of Count, Results and WriteResults -/

/-- The result strings contributed by one stored path entry. -/
def resultsOf1 (host : String) (pp : String × List Params) : List String :=
  if pp.2.isEmpty then [host ++ pp.1]
  else pp.2.map (fun ps => host ++ pp.1 ++ mapToQuery ps)

/-- Canonical flat enumeration of the store. -/
def specResults (st : ProcState) : List String :=
  st.urlMap.flatMap (fun hp => hp.2.flatMap (resultsOf1 hp.1))

/-- One line per result string, in order (what `WriteResults` prints). -/
def joinLines (rs : List String) : String :=
  rs.foldl (fun a r => a ++ r ++ "\n") ""

theorem foldl_append_singleton (f : Params → String) :
    ∀ (pl : List Params) (acc : List String),
      pl.foldl (fun a ps => a ++ [f ps]) acc = acc ++ pl.map f := by
  intro pl
  induction pl with
  | nil => intro acc; simp
  | cons ps rest ih =>
    intro acc
    simp only [List.foldl_cons, List.map_cons, ih]
    simp

theorem results_mid_fold (host : String) :
    ∀ (paths : List (String × List Params)) (acc : List String),
      paths.foldl
        (fun acc2 pp =>
          if !pp.2.isEmpty then
            pp.2.foldl (fun a ps => a ++ [host ++ pp.1 ++ mapToQuery ps]) acc2
          else acc2 ++ [host ++ pp.1])
        acc
      = acc ++ paths.flatMap (resultsOf1 host) := by
  intro paths
  induction paths with
  | nil => intro acc; simp
  | cons pp rest ih =>
    intro acc
    simp only [List.foldl_cons, List.flatMap_cons]
    by_cases he : pp.2.isEmpty
    · simp only [he, Bool.not_true, Bool.false_eq_true, if_false, ih]
      simp [resultsOf1, he]
    · simp only [he, Bool.not_false, if_true,
        foldl_append_singleton (fun ps => host ++ pp.1 ++ mapToQuery ps), ih]
      simp [resultsOf1, he]

theorem results_outer_fold :
    ∀ (m : UrlMap) (acc : List String),
      m.foldl
        (fun acc hp =>
          hp.2.foldl
            (fun acc2 pp =>
              if !pp.2.isEmpty then
                pp.2.foldl (fun a ps => a ++ [hp.1 ++ pp.1 ++ mapToQuery ps]) acc2
              else acc2 ++ [hp.1 ++ pp.1])
            acc)
        acc
      = acc ++ m.flatMap (fun hp => hp.2.flatMap (resultsOf1 hp.1)) := by
  intro m
  induction m with
  | nil => intro acc; simp
  | cons hp rest ih =>
    intro acc
    simp only [List.foldl_cons, List.flatMap_cons]
    rw [results_mid_fold hp.1 hp.2 acc, ih]
    simp

theorem resultsGo_eq_specResults (st : ProcState) :
    resultsGo st = specResults st := by
  unfold resultsGo specResults
  rw [results_outer_fold st.urlMap []]
  simp

theorem count_mid_fold (host : String) :
    ∀ (paths : List (String × List Params)) (acc : Nat),
      paths.foldl (fun a pp => if !pp.2.isEmpty then a + pp.2.length else a + 1) acc
      = acc + (paths.flatMap (resultsOf1 host)).length := by
  intro paths
  induction paths with
  | nil => intro acc; simp
  | cons pp rest ih =>
    intro acc
    simp only [List.foldl_cons, List.flatMap_cons, List.length_append]
    by_cases he : pp.2.isEmpty
    · simp only [he, Bool.not_true, Bool.false_eq_true, if_false, ih]
      simp [resultsOf1, he]
      omega
    · simp only [he, Bool.not_false, if_true, ih]
      simp [resultsOf1, he]
      omega

theorem count_outer_fold :
    ∀ (m : UrlMap) (acc : Nat),
      m.foldl
        (fun acc hp =>
          hp.2.foldl (fun a pp => if !pp.2.isEmpty then a + pp.2.length else a + 1) acc)
        acc
      = acc + (m.flatMap (fun hp => hp.2.flatMap (resultsOf1 hp.1))).length := by
  intro m
  induction m with
  | nil => intro acc; simp
  | cons hp rest ih =>
    intro acc
    simp only [List.foldl_cons, List.flatMap_cons, List.length_append]
    rw [count_mid_fold hp.1 hp.2 acc, ih]
    omega

theorem joinLines_fold :
    ∀ (rs : List String) (acc : String),
      rs.foldl (fun a r => a ++ r ++ "\n") acc = acc ++ joinLines rs := by
  intro rs
  induction rs with
  | nil => intro acc; simp [joinLines, String.append_empty]
  | cons r rest ih =>
    intro acc
    simp only [joinLines, List.foldl_cons]
    rw [ih (acc ++ r ++ "\n"), ih ("" ++ r ++ "\n")]
    simp [String.append_assoc]

theorem joinLines_append (xs ys : List String) :
    joinLines (xs ++ ys) = joinLines xs ++ joinLines ys := by
  unfold joinLines
  rw [List.foldl_append, joinLines_fold ys (List.foldl (fun a r => a ++ r ++ "\n") "" xs),
      joinLines_fold]
  simp [joinLines]

theorem write_inner_fold (pre : String) :
    ∀ (pl : List Params) (acc : String),
      pl.foldl (fun a ps => a ++ pre ++ mapToQuery ps ++ "\n") acc
      = acc ++ joinLines (pl.map (fun ps => pre ++ mapToQuery ps)) := by
  intro pl
  induction pl with
  | nil => intro acc; simp [joinLines, String.append_empty]
  | cons ps rest ih =>
    intro acc
    simp only [List.foldl_cons, List.map_cons]
    rw [ih]
    have hj : joinLines ((pre ++ mapToQuery ps) :: rest.map (fun ps => pre ++ mapToQuery ps))
        = (pre ++ mapToQuery ps) ++ "\n" ++ joinLines (rest.map (fun ps => pre ++ mapToQuery ps)) := by
      have : (pre ++ mapToQuery ps) :: rest.map (fun ps => pre ++ mapToQuery ps)
          = [pre ++ mapToQuery ps] ++ rest.map (fun ps => pre ++ mapToQuery ps) := by simp
      rw [this, joinLines_append]
      simp [joinLines, String.append_assoc]
    rw [hj]
    simp [String.append_assoc]

theorem write_mid_fold (host : String) :
    ∀ (paths : List (String × List Params)) (acc : String),
      paths.foldl
        (fun acc2 pp =>
          if !pp.2.isEmpty then
            pp.2.foldl (fun a ps => a ++ host ++ pp.1 ++ mapToQuery ps ++ "\n") acc2
          else acc2 ++ host ++ pp.1 ++ "\n")
        acc
      = acc ++ joinLines (paths.flatMap (resultsOf1 host)) := by
  intro paths
  induction paths with
  | nil => intro acc; simp [joinLines, String.append_empty]
  | cons pp rest ih =>
    intro acc
    simp only [List.foldl_cons, List.flatMap_cons]
    rw [joinLines_append]
    by_cases he : pp.2.isEmpty
    · simp only [he, Bool.not_true, Bool.false_eq_true, if_false, ih]
      simp [resultsOf1, he, joinLines, String.append_assoc, String.append_empty]
    · simp only [he, Bool.not_false, if_true]
      have hb : (fun (a : String) (ps : Params) => a ++ host ++ pp.1 ++ mapToQuery ps ++ "\n")
          = fun (a : String) (ps : Params) => a ++ (host ++ pp.1) ++ mapToQuery ps ++ "\n" := by
        funext a ps
        simp [String.append_assoc]
      rw [hb, write_inner_fold (host ++ pp.1) pp.2 acc, ih]
      simp [resultsOf1, he, String.append_assoc]

theorem write_outer_fold :
    ∀ (m : UrlMap) (acc : String),
      m.foldl
        (fun acc hp =>
          hp.2.foldl
            (fun acc2 pp =>
              if !pp.2.isEmpty then
                pp.2.foldl (fun a ps => a ++ hp.1 ++ pp.1 ++ mapToQuery ps ++ "\n") acc2
              else acc2 ++ hp.1 ++ pp.1 ++ "\n")
            acc)
        acc
      = acc ++ joinLines (m.flatMap (fun hp => hp.2.flatMap (resultsOf1 hp.1))) := by
  intro m
  induction m with
  | nil => intro acc; simp [joinLines, String.append_empty]
  | cons hp rest ih =>
    intro acc
    simp only [List.foldl_cons, List.flatMap_cons]
    rw [write_mid_fold hp.1 hp.2 acc, ih, joinLines_append]
    simp [String.append_assoc]

/-- C10: in every processor state the three result-enumeration operations
agree: `Count` equals the number of strings of `Results`, and `WriteResults`
writes exactly the strings of `Results`, one per line, in the same order —
all three enumerate the same (host, path, parameter-set) combinations. -/
theorem c10_enumeration_agreement (st : ProcState) :
    countGo st = (resultsGo st).length ∧
    writeResultsStr st = joinLines (resultsGo st) := by
  constructor
  · unfold countGo
    rw [count_outer_fold st.urlMap 0, resultsGo_eq_specResults]
    unfold specResults
    omega
  · unfold writeResultsStr
    rw [write_outer_fold st.urlMap "", resultsGo_eq_specResults]
    unfold specResults
    simp [joinLines]


/-! ## Claim C9: canonicalisation -/

theorem goToValidUTF8_discard_example : goToValidUTF8 [104, 255, 105] = [104, 105] := by
  rw [goToValidUTF8_some 104 [255, 105] 1 (by decide)]
  rw [show (104 :: [255, 105]).take 1 = [104] from rfl]
  rw [show (104 :: [255, 105]).drop 1 = [255, 105] from rfl]
  rw [goToValidUTF8_none 255 [105] (by decide)]
  rw [goToValidUTF8_some 105 [] 1 (by decide)]
  rw [show (105 :: ([] : List Nat)).take 1 = [105] from rfl]
  rw [show (105 :: ([] : List Nat)).drop 1 = ([] : List Nat) from rfl]
  rw [goToValidUTF8_nil]
  rfl

/-- C9: canonicalisation strips invalid byte sequences discarding them (valid
input passes through unchanged, the output is always valid, and an invalid
byte is dropped rather than substituted), trims surrounding whitespace, and
removes a trailing path separator unless keep-slash is set: without
keep-slash, `http://h/a/` is processed exactly like `http://h/a` from any
state; with keep-slash, `/a/` and `/a` are stored as two distinct paths. -/
theorem c9_canonicalization :
    (∀ bs : List Nat, validUTF8 bs = true → goToValidUTF8 bs = bs) ∧
    (∀ bs : List Nat, validUTF8 (goToValidUTF8 bs) = true) ∧
    goToValidUTF8 [104, 255, 105] = [104, 105] ∧
    normalizeLine false " http://h/a/ " = "http://h/a" ∧
    (∀ st : ProcState, ProcessGo defaultConfig st "http://h/a/" =
                       ProcessGo defaultConfig st "http://h/a") ∧
    (runLines (uroSetupFilters ⟨[], [], ["keepslash"], false⟩) freshState
        ["http://h/a/", "http://h/a"]).1 = [true, true] ∧
    resultsGo (runLines (uroSetupFilters ⟨[], [], ["keepslash"], false⟩) freshState
        ["http://h/a/", "http://h/a"]).2 = ["http://h/a/", "http://h/a"] := by
  refine ⟨?_, ?_, goToValidUTF8_discard_example, by decide, ?_, by decide, by decide⟩
  · intro bs hv
    exact goToValidUTF8_of_valid bs.length bs le_rfl hv
  · intro bs
    exact validUTF8_goToValidUTF8 bs.length bs le_rfl
  · intro st
    unfold ProcessGo
    rw [show normalizeLine defaultConfig.keepSlash "http://h/a/" = "http://h/a" from by decide,
        show normalizeLine defaultConfig.keepSlash "http://h/a" = "http://h/a" from by decide]

/-- Witness for C9 at a concrete input (the only hypothesis is the validity
premise of the pass-through conjunct). -/
theorem c9_canonicalization_witness :
    validUTF8 [104, 105] = true ∧ goToValidUTF8 [104, 105] = [104, 105] := by
  have hv : validUTF8 [104, 105] = true := by
    rw [validUTF8_some 104 [105] 1 (by decide)]
    rw [show (104 :: [105]).drop 1 = [105] from rfl]
    rw [validUTF8_some 105 [] 1 (by decide)]
    rw [show (105 :: ([] : List Nat)).drop 1 = ([] : List Nat) from rfl]
    exact validUTF8_nil
  exact ⟨hv, c9_canonicalization.1 [104, 105] hv⟩

end Uro
